import Mathlib

/-
Verification of the history-bigram learner (src/libime/historybigram.cpp) and
the pinyin decoder's lattice-node factory (src/libime/pinyin/pinyindecoder.cpp).

Modelling conventions:
* A word (std::string) is a list of characters; the bigram trie key for the
  pair (s1, s2) is s1 ++ "|" ++ s2 as in the source.
* DATrie<int32_t> (datrie.h is not part of the sources). Modelled from the
  spec: an exact-match map from byte-string keys to counts where an absent key
  (NO_VALUE) is read as 0, `update` defaults the absent value to 0, `erase` of
  a key is the same observable as storing 0, and `save`/`load` round-trip the
  map exactly.  Counts are natural numbers: the source only moves them up or
  down by one and erases at 0, so reachable values are non-negative.
* C++ `float` arithmetic is modelled exactly over ℚ (0.68 = 17/25,
  0.32 = 8/25, decay 0.05 = 1/20); `std::log10` is `Real.logb 10`.  The
  `int uf = <float>` conversions in HistoryBigram::score truncate toward zero;
  the truncated quantities are non-negative here, so truncation is `Int.floor`.
* Streams are modelled at record level: `save` produces the list of sentence
  records in the order they are written, followed by the final tier's two
  tries; `load` consumes them in that order.
-/

/-- A word is a byte/character string, as std::string in the source. -/
abbrev Word := List Char

/-- Key used by the bigram trie: `s1 << "|" << s2` in the source. -/
def bigramKey (s1 s2 : Word) : Word := s1 ++ '|' :: s2

/-- Modelled from the spec: a DATrie<int32_t> holding counters is an
exact-match map from keys to counts, absent = 0. -/
abbrev CountTrie := Word → ℕ

/-- HistoryBigramPool::incFreq: `trie.update(s, fun v => v + 1)` with the
absent value defaulting to 0. -/
def incFreq (s : Word) (trie : CountTrie) : CountTrie :=
  Function.update trie s (trie s + 1)

/-- HistoryBigramPool::decFreq: no-op when the key is absent, erase when the
decremented value reaches 0, otherwise store the decremented value.  With
absent = 0, erasing and storing 0 coincide. -/
def decFreq (s : Word) (trie : CountTrie) : CountTrie :=
  if trie s = 0 then trie else Function.update trie s (trie s - 1)

/-- Unigram updates performed by the iterator loop in HistoryBigramPool::add:
one increment per word of the sentence. -/
def incWords (sentence : List Word) (trie : CountTrie) : CountTrie :=
  sentence.foldl (fun t w => incFreq w t) trie

/-- Unigram updates performed by HistoryBigramPool::remove. -/
def decWords (sentence : List Word) (trie : CountTrie) : CountTrie :=
  sentence.foldl (fun t w => decFreq w t) trie

/-- The bigram keys produced by one sentence: one key per pair of consecutive
words (`incBigram(*iter, *next)` in the source). -/
def pairKeys (sentence : List Word) : List Word :=
  (sentence.zip sentence.tail).map (fun p => bigramKey p.1 p.2)

/-- Bigram updates performed by HistoryBigramPool::add.  The source interleaves
unigram and bigram increments in a single loop; they touch distinct tries, so
they are modelled as separate folds. -/
def incPairs (sentence : List Word) (trie : CountTrie) : CountTrie :=
  (pairKeys sentence).foldl (fun t k => incFreq k t) trie

/-- Bigram updates performed by HistoryBigramPool::remove. -/
def decPairs (sentence : List Word) (trie : CountTrie) : CountTrie :=
  (pairKeys sentence).foldl (fun t k => decFreq k t) trie

/-- One tier of the history model (class HistoryBigramPool).  `recent` is the
std::list of sentences with the newest at the front; `size` is the `size_`
counter.  `maxSize_` is 8192 for the recent tier and 0 (unbounded) for the
final tier; the `next_` pointer is modelled by pairing the two pools in
`evictLoop` below. -/
structure HistoryBigramPool where
  recent : List (List Word)
  unigram : CountTrie
  bigram : CountTrie
  size : ℕ

attribute [ext] HistoryBigramPool

/-- The pool a fresh HistoryBigramPool() starts from, and the result of
HistoryBigramPool::clear(). -/
def emptyPool : HistoryBigramPool :=
  { recent := [], unigram := fun _ => 0, bigram := fun _ => 0, size := 0 }

namespace HistoryBigramPool

/-- HistoryBigramPool::unigramFreq: exactMatchSearch with NO_VALUE read as 0. -/
def unigramFreq (p : HistoryBigramPool) (s : Word) : ℕ := p.unigram s

/-- HistoryBigramPool::bigramFreq: looks up the concatenated key. -/
def bigramFreq (p : HistoryBigramPool) (s1 s2 : Word) : ℕ :=
  p.bigram (bigramKey s1 s2)

/-- The unconditional insertion at the end of HistoryBigramPool::add:
increment the counts of the sentence, push it at the front of `recent_`,
increment `size_`. -/
def insertSentence (p : HistoryBigramPool) (sentence : List Word) :
    HistoryBigramPool :=
  { recent := sentence :: p.recent,
    unigram := incWords sentence p.unigram,
    bigram := incPairs sentence p.bigram,
    size := p.size + 1 }

/-- HistoryBigramPool::add for the unbounded final tier (maxSize_ = 0): an
empty sentence returns early, otherwise the sentence is inserted; the eviction
loop never runs. -/
def add (p : HistoryBigramPool) (sentence : List Word) : HistoryBigramPool :=
  if sentence = [] then p else p.insertSentence sentence

/-- HistoryBigramPool::remove: decrement the counts of the sentence and the
`size_` counter (the sentence itself is popped separately). -/
def remove (p : HistoryBigramPool) (sentence : List Word) : HistoryBigramPool :=
  { p with
    unigram := decWords sentence p.unigram,
    bigram := decPairs sentence p.bigram,
    size := p.size - 1 }

/-- `recent_.pop_back()`: drop the oldest sentence. -/
def popBack (p : HistoryBigramPool) : HistoryBigramPool :=
  { p with recent := p.recent.dropLast }

/-- The order in which HistoryBigramPool::save writes the sentence records of a
bounded tier: the std::list (newest at the front) is iterated through
boost::adaptors::reversed. -/
def saveRecords (p : HistoryBigramPool) : List (List Word) :=
  p.recent.reverse

/-- A sequence of eviction-free adds (the unbounded tier, or the bounded tier
while it stays below capacity). -/
def addList (p : HistoryBigramPool) (sentences : List (List Word)) :
    HistoryBigramPool :=
  sentences.foldl HistoryBigramPool.add p

end HistoryBigramPool

/-- Number of sentences of a list that HistoryBigramPool::add does not skip. -/
def countNonempty (sentences : List (List Word)) : ℕ :=
  (sentences.filter (fun s => !s.isEmpty)).length

/-- One-bounded iteration bound for the eviction loop: each iteration pops one
sentence, so `r.recent.length` iterations always suffice; the fuel only makes
the recursion structural. -/
def evictLoopGo :
    ℕ → HistoryBigramPool → HistoryBigramPool →
      HistoryBigramPool × HistoryBigramPool
  | 0, r, f => (r, f)
  | n + 1, r, f =>
    if 8192 ≤ r.recent.length then
      evictLoopGo n ((r.remove (r.recent.getLastD [])).popBack)
        (f.add (r.recent.getLastD []))
    else (r, f)

/-- The `while (recent_.size() >= maxSize_)` eviction loop of
HistoryBigramPool::add for the bounded recent tier (maxSize_ = 8192), with the
final tier `f` standing for the `next_` pool: while the list holds at least
8192 sentences, the oldest sentence (the back of the list) is added to
`next_`, removed from the local counts, and popped. -/
def evictLoop (r f : HistoryBigramPool) : HistoryBigramPool × HistoryBigramPool :=
  evictLoopGo r.recent.length r f

/-- The state owned by a HistoryBigram: the bounded recent pool (maxSize_ =
8192, next_ = &finalPool_), the unbounded final pool, and the `unknown_`
floor (default -5). -/
structure HistoryBigram where
  recentPool : HistoryBigramPool
  finalPool : HistoryBigramPool
  unknown : ℚ

/-- A freshly constructed HistoryBigram(). -/
def freshHistoryBigram : HistoryBigram :=
  { recentPool := emptyPool, finalPool := emptyPool, unknown := -5 }

namespace HistoryBigram

/-- HistoryBigram::add: feed one sentence to the recent pool.  An empty
sentence returns early; otherwise the eviction loop runs and the sentence is
inserted into the recent pool. -/
def add (st : HistoryBigram) (sentence : List Word) : HistoryBigram :=
  if sentence = [] then st
  else
    let rf := evictLoop st.recentPool st.finalPool
    { st with recentPool := rf.1.insertSentence sentence, finalPool := rf.2 }

/-- A sequence of HistoryBigram::add calls. -/
def addAll (st : HistoryBigram) (sentences : List (List Word)) : HistoryBigram :=
  sentences.foldl HistoryBigram.add st

/-- The decay constant HistoryBigramPrivate::decay = 0.05f. -/
def decay : ℚ := 1 / 20

/-- HistoryBigramPrivate::unigramFreq: recent count plus decayed final count,
in float arithmetic (exact here). -/
def unigramFreqQ (st : HistoryBigram) (s : Word) : ℚ :=
  (st.recentPool.unigramFreq s : ℚ) + (st.finalPool.unigramFreq s : ℚ) * decay

/-- HistoryBigramPrivate::bigramFreq. -/
def bigramFreqQ (st : HistoryBigram) (s1 s2 : Word) : ℚ :=
  (st.recentPool.bigramFreq s1 s2 : ℚ) +
    (st.finalPool.bigramFreq s1 s2 : ℚ) * decay

/-- HistoryBigramPrivate::size: blended sentence count N. -/
def sizeQ (st : HistoryBigram) : ℚ :=
  (st.recentPool.size : ℚ) + (st.finalPool.size : ℚ) * decay

/-- HistoryBigram::isUnknown: empty word or zero blended unigram count. -/
def isUnknown (st : HistoryBigram) (v : Word) : Bool :=
  v = [] || st.unigramFreqQ v = 0

/-- The probability computed inside HistoryBigram::score.  The blended counts
are truncated by the `int uf0 = ...`, `int bf = ...`, `int uf1 = ...`
conversions (they are non-negative, so truncation toward zero is the floor);
the blended size N stays a float. -/
def pr (st : HistoryBigram) (prev cur : Word) : ℚ :=
  17 / 25 * (⌊st.bigramFreqQ prev cur⌋ : ℚ) /
      ((⌊st.unigramFreqQ prev⌋ : ℚ) + 1 / 2) +
    8 / 25 * (⌊st.unigramFreqQ cur⌋ : ℚ) / (st.sizeQ + 1 / 2)

/-- HistoryBigram::score: 0 when pr >= 1, the unknown floor when pr == 0,
log10(pr) otherwise. -/
noncomputable def score (st : HistoryBigram) (prev cur : Word) : ℝ :=
  if 1 ≤ st.pr prev cur then 0
  else if st.pr prev cur = 0 then (st.unknown : ℝ)
  else Real.logb 10 (st.pr prev cur)

/-- The probability the specification's blending formula prescribes, written
from the claim's words for comparison with `pr`: the blended counts enter the
formula as exact (unrounded) values. -/
def prSpec (st : HistoryBigram) (prev cur : Word) : ℚ :=
  17 / 25 * st.bigramFreqQ prev cur / (st.unigramFreqQ prev + 1 / 2) +
    8 / 25 * st.unigramFreqQ cur / (st.sizeQ + 1 / 2)

/-- The score the specification's formula prescribes (exact blends), written
from the claim's words for comparison with `score`. -/
noncomputable def scoreSpec (st : HistoryBigram) (prev cur : Word) : ℝ :=
  if 1 ≤ st.prSpec prev cur then 0
  else if st.prSpec prev cur = 0 then (st.unknown : ℝ)
  else Real.logb 10 (st.prSpec prev cur)

/-- HistoryBigram::save followed by HistoryBigram::load on the target, at
record level.  `load` first clears the target's recent pool, then re-`add`s
each saved sentence record in stream order (evictions, if any, go to the
target's current final pool), and finally the target's final pool is cleared
and its two tries are loaded back; the final pool's `size_` counter is not
part of the stream and is left at the value `clear()` gave it, namely 0. -/
def loadFromSave (target src : HistoryBigram) : HistoryBigram :=
  let t := (src.recentPool.saveRecords).foldl HistoryBigram.add
    { target with recentPool := emptyPool }
  { t with
    finalPool :=
      { recent := [], unigram := src.finalPool.unigram,
        bigram := src.finalPool.bigram, size := 0 } }

/-- Save a state and load it into a fresh HistoryBigram. -/
def reload (src : HistoryBigram) : HistoryBigram :=
  loadFromSave freshHistoryBigram src

/-- The state HistoryBigramPool::load leaves behind when an Io error is thrown
after `readRecords` sentence records have been read successfully: `clear()` has
run first, each record read so far has been `add`ed, and the exception
propagates before anything else happens. -/
def loadAborted (st : HistoryBigram) (readRecords : List (List Word)) :
    HistoryBigram :=
  readRecords.foldl HistoryBigram.add { st with recentPool := emptyPool }

end HistoryBigram

/-- Per-decoder payload of a pinyin lattice node
(PinyinLatticeNodePrivate::encodedPinyin_), a byte string. -/
structure PinyinLatticeNodeData where
  encodedPinyin : List ℕ

/-- PinyinLatticeNode::encodedPinyin(): empty when there is no payload. -/
def encodedPinyinOf : Option PinyinLatticeNodeData → List ℕ
  | none => []
  | some d => d.encodedPinyin

/-- A lattice node as created by PinyinDecoder::createLatticeNodeImpl: the
word, its word index, the segment-graph path (node identities), the
language-model state (opaque token), the accumulated cost and the payload. -/
structure PinyinLatticeNode where
  word : Word
  idx : ℕ
  path : List ℕ
  state : ℕ
  cost : ℚ
  data : Option PinyinLatticeNodeData

/-- PinyinDecoder::createLatticeNodeImpl.  `isUnknown` is the result of
`model->isUnknown(idx, word)` (the language model is external);
`graphStart` is the identity of `graph.start()` and `path` holds node
identities, so `path.front() != &graph.start()` is `path.head? ≠ some
graphStart`.  Returning `none` models returning nullptr (the candidate is
dropped). -/
def createLatticeNodeImpl (graphStart : ℕ) (isUnknown : Bool) (word : Word)
    (idx : ℕ) (path : List ℕ) (state : ℕ) (cost : ℚ)
    (data : Option PinyinLatticeNodeData) (onlyPath : Bool) :
    Option PinyinLatticeNode :=
  if isUnknown = true ∧ (data.isSome = true ∧ (encodedPinyinOf data).length = 2)
      ∧ path.head? ≠ some graphStart ∧ onlyPath = false then
    none
  else
    some { word := word, idx := idx, path := path, state := state,
           cost := cost, data := data }

/-- Concrete one-character word "a". -/
def wA : Word := ['a']

/-- Concrete one-character word "b". -/
def wB : Word := ['b']

/-- Concrete one-character word "c". -/
def wC : Word := ['c']

/-- Concrete one-character word "x". -/
def wX : Word := ['x']

/-- Concrete word "a|b" containing the bigram separator. -/
def wAB : Word := ['a', '|', 'b']

/-- Concrete word "b|c" containing the bigram separator. -/
def wBC : Word := ['b', '|', 'c']

/-- A state whose final pool holds one count of "b" in its unigram trie and
nothing else (exactly the state a load of a saved final tier produces: tries
restored, `size_` 0).  Its blended unigram count of "b" is 1 * 0.05 = 1/20. -/
def cexFinalCount : HistoryBigram :=
  { recentPool := emptyPool,
    finalPool :=
      { recent := [], unigram := fun w => if w = wB then 1 else 0,
        bigram := fun _ => 0, size := 0 },
    unknown := -5 }

/-- A state whose recent pool is exactly at capacity: 8192 copies of the
sentence ["a"], with the matching counts; used to exercise one eviction
step. -/
def fullState : HistoryBigram :=
  { recentPool :=
      { recent := List.replicate 8192 [wA],
        unigram := fun w => if w = wA then 8192 else 0,
        bigram := fun _ => 0,
        size := 8192 },
    finalPool := emptyPool,
    unknown := -5 }

attribute [ext] HistoryBigram

/-- The state reached from a fresh HistoryBigram after adding the sentence
["a"] 8193 times: the recent pool is full with 8192 copies and one copy has
been evicted into the final pool. -/
def evictedState : HistoryBigram :=
  { recentPool :=
      { recent := List.replicate 8192 [wA],
        unigram := fun w => if w = wA then 8192 else 0,
        bigram := fun _ => 0,
        size := 8192 },
    finalPool :=
      { recent := [[wA]],
        unigram := fun w => if w = wA then 1 else 0,
        bigram := fun _ => 0,
        size := 1 },
    unknown := -5 }

/-- The state obtained by saving `evictedState` and loading it into a fresh
HistoryBigram: the recent tier is rebuilt identically, the final tier's tries
come back, but the final tier's `size_` counter (1 before the save) is not in
the stream and stays 0. -/
def reloadedState : HistoryBigram :=
  { recentPool :=
      { recent := List.replicate 8192 [wA],
        unigram := fun w => if w = wA then 8192 else 0,
        bigram := fun _ => 0,
        size := 8192 },
    finalPool :=
      { recent := [],
        unigram := fun w => if w = wA then 1 else 0,
        bigram := fun _ => 0,
        size := 0 },
    unknown := -5 }

/-
Helper lemmas about the embedded operations.
-/

theorem incWords_apply (ws : List Word) (t : CountTrie) (w : Word) :
    incWords ws t w = t w + ws.count w := by
  induction ws generalizing t with
  | nil => simp [incWords]
  | cons x ws ih =>
    have hstep : incWords (x :: ws) t = incWords ws (incFreq x t) := rfl
    rw [hstep, ih, incFreq, Function.update_apply, List.count_cons]
    by_cases hw : w = x
    · subst hw
      simp
      omega
    · simp [hw, Ne.symm hw]

theorem incPairs_eq_incWords (s : List Word) (t : CountTrie) :
    incPairs s t = incWords (pairKeys s) t := rfl

theorem evictLoopGo_of_lt (n : ℕ) (r f : HistoryBigramPool)
    (h : r.recent.length < 8192) : evictLoopGo n r f = (r, f) := by
  cases n with
  | zero => rfl
  | succ n =>
    rw [evictLoopGo, if_neg (by omega)]

theorem evictLoop_of_lt (r f : HistoryBigramPool)
    (h : r.recent.length < 8192) : evictLoop r f = (r, f) :=
  evictLoopGo_of_lt _ _ _ h

theorem evictLoop_step (r f : HistoryBigramPool) (h : r.recent.length = 8192) :
    evictLoop r f =
      ((r.remove (r.recent.getLastD [])).popBack,
        f.add (r.recent.getLastD [])) := by
  rw [evictLoop, h]
  rw [show (8192 : ℕ) = 8191 + 1 from rfl, evictLoopGo, if_pos (by omega)]
  exact evictLoopGo_of_lt _ _ _
    (by simp [HistoryBigramPool.popBack, HistoryBigramPool.remove, h])

theorem HistoryBigram.add_nil_state (st : HistoryBigram) : st.add [] = st := rfl

theorem HistoryBigramPool.add_nil_pool (p : HistoryBigramPool) : p.add [] = p := rfl

theorem HistoryBigram.add_of_lt (st : HistoryBigram) (ws : List Word)
    (h : st.recentPool.recent.length < 8192) :
    st.add ws = { st with recentPool := st.recentPool.add ws } := by
  by_cases hw : ws = []
  · subst hw
    rfl
  · rw [HistoryBigram.add, if_neg hw, evictLoop_of_lt _ _ h,
      HistoryBigramPool.add, if_neg hw]

theorem countNonempty_cons (r : List Word) (ss : List (List Word)) :
    countNonempty (r :: ss) = (if r = [] then 0 else 1) + countNonempty ss := by
  by_cases hr : r = [] <;>
    simp [countNonempty, List.filter_cons, hr, Nat.add_comm]

theorem addAll_of_le (ss : List (List Word)) (st : HistoryBigram)
    (h : st.recentPool.recent.length + countNonempty ss ≤ 8192) :
    ss.foldl HistoryBigram.add st =
      { st with recentPool := st.recentPool.addList ss } := by
  induction ss generalizing st with
  | nil => rfl
  | cons r ss ih =>
    rw [List.foldl_cons]
    by_cases hr : r = []
    · subst hr
      rw [HistoryBigram.add_nil_state]
      exact ih st (by rw [countNonempty_cons] at h; simpa using h)
    · have hone : countNonempty (r :: ss) = 1 + countNonempty ss := by
        rw [countNonempty_cons, if_neg hr]
      have hlt : st.recentPool.recent.length < 8192 := by omega
      rw [HistoryBigram.add_of_lt st r hlt]
      have hlen :
          ({ st with recentPool := st.recentPool.add r } :
            HistoryBigram).recentPool.recent.length =
            st.recentPool.recent.length + 1 := by
        simp [HistoryBigramPool.add, hr, HistoryBigramPool.insertSentence]
      rw [ih _ (by rw [hlen]; omega)]
      rfl

theorem addList_recent (p : HistoryBigramPool) (ss : List (List Word)) :
    (p.addList ss).recent =
      (ss.filter (fun s => !s.isEmpty)).reverse ++ p.recent := by
  induction ss generalizing p with
  | nil => simp [HistoryBigramPool.addList]
  | cons r ss ih =>
    by_cases hr : r = []
    · subst hr
      show (p.addList ss).recent = _
      rw [ih]
      simp [List.filter_cons]
    · show ((p.add r).addList ss).recent = _
      rw [ih]
      simp [List.filter_cons, hr, HistoryBigramPool.add,
        HistoryBigramPool.insertSentence, List.isEmpty_iff]

theorem addList_size (p : HistoryBigramPool) (ss : List (List Word)) :
    (p.addList ss).size = p.size + countNonempty ss := by
  induction ss generalizing p with
  | nil => simp [HistoryBigramPool.addList, countNonempty]
  | cons r ss ih =>
    rw [countNonempty_cons]
    by_cases hr : r = []
    · subst hr
      show (p.addList ss).size = _
      rw [ih]
      simp
    · show ((p.add r).addList ss).size = _
      rw [ih]
      simp [HistoryBigramPool.add, hr, HistoryBigramPool.insertSentence]
      omega

theorem addList_unigram (p : HistoryBigramPool) (ss : List (List Word))
    (w : Word) :
    (p.addList ss).unigram w = p.unigram w + (ss.flatten).count w := by
  induction ss generalizing p with
  | nil => simp [HistoryBigramPool.addList]
  | cons r ss ih =>
    by_cases hr : r = []
    · subst hr
      show (p.addList ss).unigram w = _
      rw [ih]
      simp
    · show ((p.add r).addList ss).unigram w = _
      rw [ih]
      simp [HistoryBigramPool.add, hr, HistoryBigramPool.insertSentence,
        incWords_apply, List.count_append]
      omega

theorem addList_bigram (p : HistoryBigramPool) (ss : List (List Word))
    (k : Word) :
    (p.addList ss).bigram k = p.bigram k + ((ss.map pairKeys).flatten).count k := by
  induction ss generalizing p with
  | nil => simp [HistoryBigramPool.addList]
  | cons r ss ih =>
    by_cases hr : r = []
    · subst hr
      show (p.addList ss).bigram k = _
      rw [ih]
      simp [pairKeys]
    · show ((p.add r).addList ss).bigram k = _
      rw [ih]
      simp [HistoryBigramPool.add, hr, HistoryBigramPool.insertSentence,
        incPairs_eq_incWords, incWords_apply, List.count_append]
      omega

theorem addList_filter (p : HistoryBigramPool) (ss : List (List Word)) :
    p.addList (ss.filter (fun s => !s.isEmpty)) = p.addList ss := by
  induction ss generalizing p with
  | nil => rfl
  | cons r ss ih =>
    by_cases hr : r = []
    · subst hr
      rw [show ([] :: ss).filter (fun s => !s.isEmpty) =
          ss.filter (fun s => !s.isEmpty) by simp [List.filter_cons]]
      exact ih p
    · rw [show (r :: ss).filter (fun s => !s.isEmpty) =
          r :: ss.filter (fun s => !s.isEmpty) by
        simp [List.filter_cons, List.isEmpty_iff, hr]]
      show (p.add r).addList (ss.filter (fun s => !s.isEmpty)) = _
      exact ih (p.add r)

/-- C10: adding an empty sentence to a HistoryBigram is a no-op.  The state is
unchanged verbatim (the source returns before the eviction loop), hence the
pool sizes, the sentence deque, every unigram and bigram count, all score and
isUnknown results are unchanged, and no eviction is triggered (the final pool
is untouched). -/
theorem add_empty_sentence_noop (st : HistoryBigram) :
    st.add [] = st
  ∧ (st.add []).recentPool.recent = st.recentPool.recent
  ∧ (st.add []).recentPool.size = st.recentPool.size
  ∧ (st.add []).finalPool = st.finalPool
  ∧ (∀ w, (st.add []).recentPool.unigramFreq w = st.recentPool.unigramFreq w)
  ∧ (∀ a b, (st.add []).recentPool.bigramFreq a b =
      st.recentPool.bigramFreq a b)
  ∧ (∀ a b, (st.add []).score a b = st.score a b)
  ∧ (∀ w, (st.add []).isUnknown w = st.isUnknown w) :=
  ⟨rfl, rfl, rfl, rfl, fun _ => rfl, fun _ _ => rfl, fun _ _ => rfl,
    fun _ => rfl⟩

/-- C9: in every pool state, bigramFreq(s1, s2) looks up only the concatenated
key s1 ++ "|" ++ s2, so word pairs with coinciding concatenations are
indistinguishable. -/
theorem bigramFreq_key_collision (p : HistoryBigramPool) (s1 s2 t1 t2 : Word)
    (h : bigramKey s1 s2 = bigramKey t1 t2) :
    p.bigramFreq s1 s2 = p.bigramFreq t1 t2 := by
  unfold HistoryBigramPool.bigramFreq
  rw [h]

/-- Witness at the claim's example: after add(["a|b", "c"]), the pair
("a", "b|c") reads the same count as ("a|b", "c"). -/
theorem bigramFreq_key_collision_witness :
    bigramKey wA wBC = bigramKey wAB wC
  ∧ (freshHistoryBigram.add [wAB, wC]).recentPool.bigramFreq wA wBC =
      (freshHistoryBigram.add [wAB, wC]).recentPool.bigramFreq wAB wC :=
  ⟨by decide,
    bigramFreq_key_collision (freshHistoryBigram.add [wAB, wC]).recentPool
      wA wBC wAB wC (by decide)⟩

/-- C8: the lattice-node factory drops a candidate (returns nullptr) exactly
when the language model reports the word unknown, the candidate's encoded
pinyin is exactly 2 bytes, the path does not start at the graph's start node,
and onlyPath is false; in every other case it creates a node carrying the
given word, index, path, state, cost and payload. -/
theorem createLatticeNode_prune_characterization (graphStart : ℕ)
    (isUnknown : Bool) (word : Word) (idx : ℕ) (path : List ℕ) (state : ℕ)
    (cost : ℚ) (data : Option PinyinLatticeNodeData) (onlyPath : Bool) :
    (createLatticeNodeImpl graphStart isUnknown word idx path state cost data
        onlyPath = none ↔
      isUnknown = true ∧ (encodedPinyinOf data).length = 2 ∧
        path.head? ≠ some graphStart ∧ onlyPath = false)
  ∧ (createLatticeNodeImpl graphStart isUnknown word idx path state cost data
        onlyPath = none ∨
      createLatticeNodeImpl graphStart isUnknown word idx path state cost data
        onlyPath = some
          { word := word, idx := idx, path := path, state := state,
            cost := cost, data := data }) := by
  have hiff : (data.isSome = true ∧ (encodedPinyinOf data).length = 2) ↔
      (encodedPinyinOf data).length = 2 := by
    cases data <;> simp [encodedPinyinOf]
  rw [createLatticeNodeImpl]
  by_cases hc : isUnknown = true ∧
      (data.isSome = true ∧ (encodedPinyinOf data).length = 2) ∧
      path.head? ≠ some graphStart ∧ onlyPath = false
  · rw [if_pos hc]
    exact ⟨iff_of_true rfl ⟨hc.1, hiff.mp hc.2.1, hc.2.2⟩, Or.inl rfl⟩
  · rw [if_neg hc]
    refine ⟨iff_of_false (by simp) ?_, Or.inr rfl⟩
    intro hcl
    exact hc ⟨hcl.1, hiff.mpr hcl.2.1, hcl.2.2⟩

/-- Counterexample to C4 as stated: after add(["a"]) then add(["b"]), the
first sentence record written by save is ["a"], the oldest, while the most
recently added sentence (the head of the recent deque) is ["b"]. -/
theorem save_newest_first_cex :
    ((freshHistoryBigram.add [wA]).add [wB]).recentPool.saveRecords.head? =
      some [wA]
  ∧ (((freshHistoryBigram.add [wA]).add [wB]).recentPool.recent).head? =
      some [wB]
  ∧ ([wA] : List Word) ≠ [wB] := by
  decide

/-- C4 (amended): save writes the bounded tier's sentences oldest-first: the
first record written is the oldest sentence of the recent deque and the last
record written is the newest; the most recently added sentence sits at the
head of the deque. -/
theorem save_writes_oldest_first (st : HistoryBigram) (ws : List Word)
    (h : ws ≠ []) :
    (st.recentPool.saveRecords).head? = st.recentPool.recent.getLast?
  ∧ (st.recentPool.saveRecords).getLast? = st.recentPool.recent.head?
  ∧ ((st.add ws).recentPool.recent).head? = some ws := by
  refine ⟨List.head?_reverse _, List.getLast?_reverse _, ?_⟩
  rw [HistoryBigram.add, if_neg h]
  rfl

/-- Witness for the save-order theorem at a concrete state and sentence. -/
theorem save_writes_oldest_first_witness :
    ([wA] : List Word) ≠ []
  ∧ ((freshHistoryBigram.recentPool.saveRecords).head? =
      freshHistoryBigram.recentPool.recent.getLast?
    ∧ (freshHistoryBigram.recentPool.saveRecords).getLast? =
      freshHistoryBigram.recentPool.recent.head?
    ∧ ((freshHistoryBigram.add [wA]).recentPool.recent).head? = some [wA]) :=
  ⟨by decide, save_writes_oldest_first freshHistoryBigram [wA] (by decide)⟩

/-- Counterexample to C5 as stated: a load that read one sentence ["a"] and
then failed does not leave the pool empty: the sentence is present, its
unigram count is 1 and the pool size is 1. -/
theorem load_failure_leaves_read_records_cex :
    (freshHistoryBigram.loadAborted [[wA]]).recentPool.unigramFreq wA = 1
  ∧ (freshHistoryBigram.loadAborted [[wA]]).recentPool.size = 1
  ∧ (freshHistoryBigram.loadAborted [[wA]]).recentPool.recent = [[wA]] := by
  decide

/-- C5 (amended): a load that fails after reading some records leaves the
target's recent pool holding exactly those records — the pool's previous
contents are cleared (no corrupt mix with prior state), but the records read
before the failure remain; the final pool is untouched by the failed recent
phase. -/
theorem load_failure_state (st : HistoryBigram) (recs : List (List Word))
    (w k : Word) (h : countNonempty recs ≤ 8192) :
    (st.loadAborted recs).recentPool.recent =
      (recs.filter (fun s => !s.isEmpty)).reverse
  ∧ (st.loadAborted recs).recentPool.unigramFreq w = (recs.flatten).count w
  ∧ (st.loadAborted recs).recentPool.bigram k =
      ((recs.map pairKeys).flatten).count k
  ∧ (st.loadAborted recs).recentPool.size = countNonempty recs
  ∧ (st.loadAborted recs).finalPool = st.finalPool := by
  have hfold : st.loadAborted recs =
      { st with recentPool := emptyPool.addList recs } := by
    have h2 := addAll_of_le recs { st with recentPool := emptyPool }
      (by simpa [emptyPool] using h)
    simpa [HistoryBigram.loadAborted] using h2
  rw [hfold]
  refine ⟨?_, ?_, ?_, ?_, rfl⟩
  · rw [show ({ st with recentPool := emptyPool.addList recs } :
        HistoryBigram).recentPool = emptyPool.addList recs from rfl,
      addList_recent]
    simp [emptyPool]
  · show (emptyPool.addList recs).unigram w = _
    rw [addList_unigram]
    simp [emptyPool]
  · show (emptyPool.addList recs).bigram k = _
    rw [addList_bigram]
    simp [emptyPool]
  · show (emptyPool.addList recs).size = _
    rw [addList_size]
    simp [emptyPool]

/-- Witness for the aborted-load theorem at a concrete prior state, read
prefix, word and key. -/
theorem load_failure_state_witness :
    countNonempty [[wA], [wB]] ≤ 8192
  ∧ ((freshHistoryBigram.loadAborted [[wA], [wB]]).recentPool.recent =
      (([[wA], [wB]] : List (List Word)).filter (fun s => !s.isEmpty)).reverse
    ∧ (freshHistoryBigram.loadAborted [[wA], [wB]]).recentPool.unigramFreq wA =
      (([[wA], [wB]] : List (List Word)).flatten).count wA
    ∧ (freshHistoryBigram.loadAborted [[wA], [wB]]).recentPool.bigram
        (bigramKey wA wB) =
      ((([[wA], [wB]] : List (List Word)).map pairKeys).flatten).count
        (bigramKey wA wB)
    ∧ (freshHistoryBigram.loadAborted [[wA], [wB]]).recentPool.size =
      countNonempty [[wA], [wB]]
    ∧ (freshHistoryBigram.loadAborted [[wA], [wB]]).finalPool =
      freshHistoryBigram.finalPool) :=
  ⟨by decide,
    load_failure_state freshHistoryBigram [[wA], [wB]] wA (bigramKey wA wB)
      (by decide)⟩

theorem append_bar_inj (x y a b : Word) (hx : ('|' : Char) ∉ x)
    (ha : ('|' : Char) ∉ a) (h : x ++ '|' :: y = a ++ '|' :: b) :
    x = a ∧ y = b := by
  induction x generalizing a with
  | nil =>
    cases a with
    | nil => simpa using h
    | cons d a =>
      rw [List.nil_append, List.cons_append, List.cons.injEq] at h
      exact absurd (List.mem_cons_self d a) (h.1 ▸ ha)
  | cons c x ih =>
    cases a with
    | nil =>
      rw [List.cons_append, List.nil_append, List.cons.injEq] at h
      exact absurd (List.mem_cons_self c x) (h.1.symm ▸ hx)
    | cons d a =>
      rw [List.cons_append, List.cons_append, List.cons.injEq] at h
      obtain ⟨h1, h2⟩ := ih a (fun hm => hx (List.mem_cons_of_mem c hm))
        (fun hm => ha (List.mem_cons_of_mem d hm)) h.2
      exact ⟨by rw [h.1, h1], h2⟩

theorem count_bar_bigramKey (x y : Word) (hx : ('|' : Char) ∉ x)
    (hy : ('|' : Char) ∉ y) : (bigramKey x y).count '|' = 1 := by
  rw [bigramKey]
  simp [List.count_append, List.count_cons, List.count_eq_zero.mpr hx,
    List.count_eq_zero.mpr hy]

theorem count_bar_bigramKey_ge_two (a b : Word)
    (h : ('|' : Char) ∈ a ∨ ('|' : Char) ∈ b) :
    2 ≤ (bigramKey a b).count '|' := by
  rw [bigramKey]
  rcases h with h | h
  · have := List.count_pos_iff.mpr h
    simp [List.count_append, List.count_cons]
    omega
  · have := List.count_pos_iff.mpr h
    simp [List.count_append, List.count_cons]
    omega

theorem count_map_bigramKey (l : List (Word × Word)) (a b : Word)
    (hl : ∀ p ∈ l, ('|' : Char) ∉ p.1 ∧ ('|' : Char) ∉ p.2) :
    (l.map (fun p => bigramKey p.1 p.2)).count (bigramKey a b) =
      l.count (a, b) := by
  induction l with
  | nil => rfl
  | cons p l ih =>
    rw [List.map_cons, List.count_cons, List.count_cons,
      ih (fun q hq => hl q (List.mem_cons_of_mem _ hq))]
    have hp := hl p (List.mem_cons_self _ _)
    have hcond : (bigramKey a b = bigramKey p.1 p.2) ↔ ((a, b) = p) := by
      constructor
      · intro hk
        by_cases hab : ('|' : Char) ∉ a ∧ ('|' : Char) ∉ b
        · obtain ⟨h1, h2⟩ := append_bar_inj a b p.1 p.2 hab.1 hp.1 hk
          rw [h1, h2]
        · exfalso
          have h2 : 2 ≤ (bigramKey a b).count '|' :=
            count_bar_bigramKey_ge_two a b (by tauto)
          rw [hk, count_bar_bigramKey p.1 p.2 hp.1 hp.2] at h2
          omega
      · intro hp2
        rw [← hp2]
    simp only [beq_iff_eq]
    rw [if_congr (eq_comm.trans (hcond.trans eq_comm)) rfl rfl]

theorem count_pairKeys (ws : List Word) (a b : Word)
    (hws : ∀ w ∈ ws, ('|' : Char) ∉ w) :
    (pairKeys ws).count (bigramKey a b) = (ws.zip ws.tail).count (a, b) := by
  rw [pairKeys, count_map_bigramKey]
  intro p hp
  obtain ⟨q, r⟩ := p
  have h1 := List.of_mem_zip hp
  exact ⟨hws _ h1.1, hws _ (List.mem_of_mem_tail h1.2)⟩

/-- Counterexample to C7 as stated: W = ["a|b", "c"] contains no consecutive
occurrence of the pair ("a", "b|c"), so the claim says bigramFreq("a", "b|c")
does not change, yet add(W) raises it from 0 to 1 (its trie key "a|b|c"
coincides with the key of the pair ("a|b", "c") that did occur). -/
theorem add_increments_counts_cex :
    (freshHistoryBigram.add [wAB, wC]).recentPool.bigramFreq wA wBC = 1
  ∧ (([wAB, wC] : List Word).zip ([wAB, wC] : List Word).tail).count
      (wA, wBC) = 0
  ∧ freshHistoryBigram.recentPool.bigramFreq wA wBC = 0 := by
  decide

/-- C7 (amended): for a word list W none of whose words contains the bigram
separator character, adding W to a HistoryBigram whose recent pool is below
capacity raises unigramFreq(w) by the number of occurrences of w in W and
bigramFreq(a, b) by the number of consecutive occurrences of the pair (a, b)
in W, for every w, a, b (so counts of non-occurring words and pairs are
unchanged); the final pool is untouched. -/
theorem add_increments_counts (st : HistoryBigram) (ws : List Word)
    (a b w : Word) (hlen : st.recentPool.recent.length < 8192)
    (hsep : ∀ x ∈ ws, ('|' : Char) ∉ x) :
    (st.add ws).recentPool.unigramFreq w =
      st.recentPool.unigramFreq w + ws.count w
  ∧ (st.add ws).recentPool.bigramFreq a b =
      st.recentPool.bigramFreq a b + (ws.zip ws.tail).count (a, b)
  ∧ (st.add ws).finalPool = st.finalPool := by
  rw [HistoryBigram.add_of_lt st ws hlen]
  by_cases hw : ws = []
  · subst hw
    exact ⟨rfl, rfl, rfl⟩
  · refine ⟨?_, ?_, rfl⟩
    · show (st.recentPool.add ws).unigram w = _
      rw [HistoryBigramPool.add, if_neg hw]
      show incWords ws st.recentPool.unigram w = _
      rw [incWords_apply]
      rfl
    · show (st.recentPool.add ws).bigram (bigramKey a b) = _
      rw [HistoryBigramPool.add, if_neg hw]
      show incPairs ws st.recentPool.bigram (bigramKey a b) = _
      rw [incPairs_eq_incWords, incWords_apply, count_pairKeys ws a b hsep]
      rfl

/-- Witness for the add-increments theorem at a concrete separator-free
sentence. -/
theorem add_increments_counts_witness :
    freshHistoryBigram.recentPool.recent.length < 8192
  ∧ (∀ x ∈ ([wA, wB] : List Word), ('|' : Char) ∉ x)
  ∧ ((freshHistoryBigram.add [wA, wB]).recentPool.unigramFreq wA =
      freshHistoryBigram.recentPool.unigramFreq wA +
        ([wA, wB] : List Word).count wA
    ∧ (freshHistoryBigram.add [wA, wB]).recentPool.bigramFreq wA wB =
      freshHistoryBigram.recentPool.bigramFreq wA wB +
        (([wA, wB] : List Word).zip ([wA, wB] : List Word).tail).count (wA, wB)
    ∧ (freshHistoryBigram.add [wA, wB]).finalPool =
      freshHistoryBigram.finalPool) :=
  ⟨by decide, by decide,
    add_increments_counts freshHistoryBigram [wA, wB] wA wB wA (by decide)
      (by decide)⟩

theorem getLastD_replicate {α : Type} (n : ℕ) (a d : α) :
    (List.replicate (n + 1) a).getLastD d = a := by
  induction n generalizing d with
  | zero => rfl
  | succ n ih =>
    rw [List.replicate_succ, List.getLastD_cons]
    exact ih a

theorem getLastD_mem_of_ne_nil (l : List (List Word)) (h : l ≠ []) :
    l.getLastD [] ∈ l := by
  rw [List.getLastD_eq_getLast?, List.getLast?_eq_getLast l h]
  exact List.getLast_mem h

theorem HistoryBigram.add_of_full (st : HistoryBigram) (ws : List Word)
    (hws : ws ≠ []) (h : st.recentPool.recent.length = 8192) :
    st.add ws =
      { st with
        recentPool := ((st.recentPool.remove
          (st.recentPool.recent.getLastD [])).popBack).insertSentence ws,
        finalPool := st.finalPool.add (st.recentPool.recent.getLastD []) } := by
  rw [HistoryBigram.add, if_neg hws, evictLoop_step _ _ h]

theorem HistoryBigram.add_of_full2 (st : HistoryBigram) (ws o : List Word)
    (hws : ws ≠ []) (h : st.recentPool.recent.length = 8192)
    (ho : st.recentPool.recent.getLastD [] = o) :
    st.add ws =
      { st with
        recentPool := ((st.recentPool.remove o).popBack).insertSentence ws,
        finalPool := st.finalPool.add o } := by
  rw [HistoryBigram.add_of_full st ws hws h, ho]

theorem addAll_sizes (ss : List (List Word)) (h : ∀ s ∈ ss, s ≠ []) :
    (freshHistoryBigram.addAll ss).recentPool.recent.length =
      min ss.length 8192
  ∧ (freshHistoryBigram.addAll ss).recentPool.size = min ss.length 8192
  ∧ (freshHistoryBigram.addAll ss).finalPool.size = ss.length - 8192
  ∧ ∀ s ∈ (freshHistoryBigram.addAll ss).recentPool.recent, s ≠ [] := by
  induction ss using List.reverseRecOn with
  | nil =>
    exact ⟨rfl, rfl, rfl, by simp [HistoryBigram.addAll, freshHistoryBigram,
      emptyPool]⟩
  | append_singleton ss w ih =>
    have hss : ∀ s ∈ ss, s ≠ [] := fun s hs => h s (by simp [hs])
    have hw : w ≠ [] := h w (by simp)
    obtain ⟨ih1, ih2, ih3, ih4⟩ := ih hss
    have hfold : freshHistoryBigram.addAll (ss ++ [w]) =
        (freshHistoryBigram.addAll ss).add w := by
      rw [HistoryBigram.addAll, HistoryBigram.addAll, List.foldl_append,
        List.foldl_cons, List.foldl_nil]
    rw [hfold]
    by_cases hlen : ss.length < 8192
    · rw [HistoryBigram.add_of_lt _ w (by omega)]
      refine ⟨?_, ?_, ?_, ?_⟩
      · show (((freshHistoryBigram.addAll ss).recentPool.add w)).recent.length = _
        rw [HistoryBigramPool.add, if_neg hw]
        show ((freshHistoryBigram.addAll ss).recentPool.recent.length + 1) = _
        simp only [List.length_append, List.length_cons, List.length_nil]
        omega
      · show (((freshHistoryBigram.addAll ss).recentPool.add w)).size = _
        rw [HistoryBigramPool.add, if_neg hw]
        show ((freshHistoryBigram.addAll ss).recentPool.size + 1) = _
        simp only [List.length_append, List.length_cons, List.length_nil]
        omega
      · show (freshHistoryBigram.addAll ss).finalPool.size = _
        simp only [List.length_append, List.length_cons, List.length_nil]
        omega
      · intro s hs
        rw [show (({ freshHistoryBigram.addAll ss with
            recentPool := (freshHistoryBigram.addAll ss).recentPool.add w } :
              HistoryBigram)).recentPool.recent =
            ((freshHistoryBigram.addAll ss).recentPool.add w).recent from rfl,
          HistoryBigramPool.add, if_neg hw] at hs
        rcases List.mem_cons.mp hs with hs | hs
        · rw [hs]; exact hw
        · exact ih4 s hs
    · have hfull : (freshHistoryBigram.addAll ss).recentPool.recent.length =
          8192 := by omega
      have hrne : (freshHistoryBigram.addAll ss).recentPool.recent ≠ [] := by
        intro hnil
        rw [hnil] at hfull
        simp at hfull
      have hone : (freshHistoryBigram.addAll ss).recentPool.recent.getLastD
          [] ≠ [] :=
        ih4 _ (getLastD_mem_of_ne_nil _ hrne)
      rw [HistoryBigram.add_of_full _ w hw hfull]
      refine ⟨?_, ?_, ?_, ?_⟩
      · show ((freshHistoryBigram.addAll
            ss).recentPool.recent.dropLast.length + 1) = _
        rw [List.length_dropLast, hfull]
        simp only [List.length_append, List.length_cons, List.length_nil]
        omega
      · show ((freshHistoryBigram.addAll ss).recentPool.size - 1 + 1) = _
        rw [ih2]
        simp only [List.length_append, List.length_cons, List.length_nil]
        omega
      · show ((freshHistoryBigram.addAll ss).finalPool.add _).size = _
        rw [HistoryBigramPool.add, if_neg hone]
        show ((freshHistoryBigram.addAll ss).finalPool.size + 1) = _
        rw [ih3]
        simp only [List.length_append, List.length_cons, List.length_nil]
        omega
      · intro s hs
        rcases List.mem_cons.mp hs with hs | hs
        · rw [hs]; exact hw
        · exact ih4 s (List.dropLast_subset _ hs)

/-- C6: starting from an empty HistoryBigram, after adding total > 8192
non-empty sentences the recent pool's size is 8192 and the final pool's size
is total - 8192; and on each overflowing add (recent deque at capacity), the
oldest recent sentence o is added to the final pool (final counts and size
grow by o's contribution) while its counts are subtracted from the recent
pool's tries before the new sentence's counts are added. -/
theorem eviction_sizes_and_step :
    (∀ ss : List (List Word), (∀ s ∈ ss, s ≠ []) → 8192 < ss.length →
      (freshHistoryBigram.addAll ss).recentPool.size = 8192
    ∧ (freshHistoryBigram.addAll ss).finalPool.size = ss.length - 8192)
  ∧ (∀ (st : HistoryBigram) (ws o : List Word),
      st.recentPool.recent.length = 8192 →
      st.recentPool.recent.getLastD [] = o → o ≠ [] → ws ≠ [] →
      (st.add ws).finalPool = st.finalPool.add o
    ∧ (st.add ws).finalPool.size = st.finalPool.size + 1
    ∧ (st.add ws).finalPool.unigram = incWords o st.finalPool.unigram
    ∧ (st.add ws).finalPool.bigram = incPairs o st.finalPool.bigram
    ∧ (st.add ws).recentPool.unigram =
        incWords ws (decWords o st.recentPool.unigram)
    ∧ (st.add ws).recentPool.bigram =
        incPairs ws (decPairs o st.recentPool.bigram)
    ∧ (st.add ws).recentPool.recent = ws :: st.recentPool.recent.dropLast
    ∧ (st.add ws).recentPool.size = st.recentPool.size - 1 + 1) := by
  constructor
  · intro ss hne hgt
    obtain ⟨h1, h2, h3, h4⟩ := addAll_sizes ss hne
    refine ⟨?_, h3⟩
    rw [h2]
    omega
  · intro st ws o hlen ho hone hws
    subst ho
    rw [HistoryBigram.add_of_full st ws hws hlen]
    refine ⟨rfl, ?_, ?_, ?_, rfl, rfl, rfl, rfl⟩
    · show (st.finalPool.add _).size = _
      rw [HistoryBigramPool.add, if_neg hone]
      rfl
    · show (st.finalPool.add _).unigram = _
      rw [HistoryBigramPool.add, if_neg hone]
      rfl
    · show (st.finalPool.add _).bigram = _
      rw [HistoryBigramPool.add, if_neg hone]
      rfl

/-- Witness for the eviction theorem: 8193 one-word sentences from empty, and
one eviction step out of the concrete at-capacity state. -/
theorem eviction_sizes_and_step_witness :
    ((∀ s ∈ List.replicate 8193 [wA], s ≠ ([] : List Word))
      ∧ 8192 < (List.replicate 8193 ([wA] : List Word)).length
      ∧ ((freshHistoryBigram.addAll (List.replicate 8193 [wA])).recentPool.size
          = 8192
        ∧ (freshHistoryBigram.addAll
            (List.replicate 8193 [wA])).finalPool.size =
          (List.replicate 8193 ([wA] : List Word)).length - 8192))
  ∧ (fullState.recentPool.recent.length = 8192
      ∧ fullState.recentPool.recent.getLastD [] = [wA]
      ∧ ([wA] : List Word) ≠ []
      ∧ ([wB] : List Word) ≠ []
      ∧ ((fullState.add [wB]).finalPool = fullState.finalPool.add [wA]
        ∧ (fullState.add [wB]).finalPool.size = fullState.finalPool.size + 1
        ∧ (fullState.add [wB]).finalPool.unigram =
            incWords [wA] fullState.finalPool.unigram
        ∧ (fullState.add [wB]).finalPool.bigram =
            incPairs [wA] fullState.finalPool.bigram
        ∧ (fullState.add [wB]).recentPool.unigram =
            incWords [wB] (decWords [wA] fullState.recentPool.unigram)
        ∧ (fullState.add [wB]).recentPool.bigram =
            incPairs [wB] (decPairs [wA] fullState.recentPool.bigram)
        ∧ (fullState.add [wB]).recentPool.recent =
            [wB] :: fullState.recentPool.recent.dropLast
        ∧ (fullState.add [wB]).recentPool.size =
            fullState.recentPool.size - 1 + 1)) := by
  have hlen : fullState.recentPool.recent.length = 8192 := by
    show (List.replicate 8192 ([wA] : List Word)).length = 8192
    rw [List.length_replicate]
  have hlast : fullState.recentPool.recent.getLastD [] = [wA] := by
    show (List.replicate (8191 + 1) ([wA] : List Word)).getLastD [] = [wA]
    exact getLastD_replicate 8191 [wA] []
  refine ⟨⟨?_, ?_, ?_⟩, hlen, hlast, by decide, by decide, ?_⟩
  · intro s hs
    rw [List.eq_of_mem_replicate hs]
    decide
  · rw [List.length_replicate]
    omega
  · exact eviction_sizes_and_step.1 (List.replicate 8193 [wA])
      (fun s hs => by rw [List.eq_of_mem_replicate hs]; decide)
      (by rw [List.length_replicate]; omega)
  · exact eviction_sizes_and_step.2 fullState [wB] [wA] hlen hlast
      (by decide) (by decide)

theorem unigramFreqQ_nonneg (st : HistoryBigram) (s : Word) :
    0 ≤ st.unigramFreqQ s := by
  unfold HistoryBigram.unigramFreqQ HistoryBigram.decay
  positivity

theorem bigramFreqQ_nonneg (st : HistoryBigram) (s1 s2 : Word) :
    0 ≤ st.bigramFreqQ s1 s2 := by
  unfold HistoryBigram.bigramFreqQ HistoryBigram.decay
  positivity

theorem sizeQ_nonneg (st : HistoryBigram) : 0 ≤ st.sizeQ := by
  unfold HistoryBigram.sizeQ HistoryBigram.decay
  positivity

theorem pr_nonneg (st : HistoryBigram) (prev cur : Word) :
    0 ≤ st.pr prev cur := by
  have hbf : (0:ℚ) ≤ (⌊st.bigramFreqQ prev cur⌋ : ℚ) := by
    exact_mod_cast Int.floor_nonneg.mpr (bigramFreqQ_nonneg st prev cur)
  have huf0 : (0:ℚ) ≤ (⌊st.unigramFreqQ prev⌋ : ℚ) := by
    exact_mod_cast Int.floor_nonneg.mpr (unigramFreqQ_nonneg st prev)
  have huf1 : (0:ℚ) ≤ (⌊st.unigramFreqQ cur⌋ : ℚ) := by
    exact_mod_cast Int.floor_nonneg.mpr (unigramFreqQ_nonneg st cur)
  have hN := sizeQ_nonneg st
  unfold HistoryBigram.pr
  apply add_nonneg
  · apply div_nonneg (by linarith) (by linarith)
  · apply div_nonneg (by linarith) (by linarith)

theorem pr_eq_zero_iff (st : HistoryBigram) (prev cur : Word) :
    st.pr prev cur = 0 ↔
      ⌊st.bigramFreqQ prev cur⌋ = 0 ∧ ⌊st.unigramFreqQ cur⌋ = 0 := by
  have hbf : (0:ℚ) ≤ (⌊st.bigramFreqQ prev cur⌋ : ℚ) := by
    exact_mod_cast Int.floor_nonneg.mpr (bigramFreqQ_nonneg st prev cur)
  have huf0 : (0:ℚ) ≤ (⌊st.unigramFreqQ prev⌋ : ℚ) := by
    exact_mod_cast Int.floor_nonneg.mpr (unigramFreqQ_nonneg st prev)
  have huf1 : (0:ℚ) ≤ (⌊st.unigramFreqQ cur⌋ : ℚ) := by
    exact_mod_cast Int.floor_nonneg.mpr (unigramFreqQ_nonneg st cur)
  have hN := sizeQ_nonneg st
  have hd0 : (0:ℚ) < (⌊st.unigramFreqQ prev⌋ : ℚ) + 1 / 2 := by linarith
  have hd1 : (0:ℚ) < st.sizeQ + 1 / 2 := by linarith
  unfold HistoryBigram.pr
  constructor
  · intro h
    have ht1 : (0:ℚ) ≤ 17 / 25 * (⌊st.bigramFreqQ prev cur⌋ : ℚ) /
        ((⌊st.unigramFreqQ prev⌋ : ℚ) + 1 / 2) :=
      div_nonneg (by linarith) (le_of_lt hd0)
    have ht2 : (0:ℚ) ≤ 8 / 25 * (⌊st.unigramFreqQ cur⌋ : ℚ) /
        (st.sizeQ + 1 / 2) :=
      div_nonneg (by linarith) (le_of_lt hd1)
    have he1 : 17 / 25 * (⌊st.bigramFreqQ prev cur⌋ : ℚ) /
        ((⌊st.unigramFreqQ prev⌋ : ℚ) + 1 / 2) = 0 := by linarith
    have he2 : 8 / 25 * (⌊st.unigramFreqQ cur⌋ : ℚ) /
        (st.sizeQ + 1 / 2) = 0 := by linarith
    rw [div_eq_zero_iff] at he1 he2
    constructor
    · rcases he1 with he1 | he1
      · have : (⌊st.bigramFreqQ prev cur⌋ : ℚ) = 0 := by linarith
        exact_mod_cast this
      · exact absurd he1 (ne_of_gt hd0)
    · rcases he2 with he2 | he2
      · have : (⌊st.unigramFreqQ cur⌋ : ℚ) = 0 := by linarith
        exact_mod_cast this
      · exact absurd he2 (ne_of_gt hd1)
  · rintro ⟨h1, h2⟩
    rw [h1, h2]
    norm_num

theorem score_of_ge_one (st : HistoryBigram) (a b : Word)
    (h : 1 ≤ st.pr a b) : st.score a b = 0 := by
  rw [HistoryBigram.score, if_pos h]

theorem score_of_eq_zero (st : HistoryBigram) (a b : Word)
    (h : st.pr a b = 0) : st.score a b = (st.unknown : ℝ) := by
  rw [HistoryBigram.score, if_neg (by rw [h]; norm_num), if_pos h]

theorem score_of_between (st : HistoryBigram) (a b : Word)
    (h0 : 0 < st.pr a b) (h1 : st.pr a b < 1) :
    st.score a b = Real.logb 10 (st.pr a b) := by
  rw [HistoryBigram.score, if_neg (not_le.mpr h1), if_neg (ne_of_gt h0)]

theorem cexFinalCount_unigramFreqQ_cur : cexFinalCount.unigramFreqQ wB = 1 / 20 := by
  unfold HistoryBigram.unigramFreqQ HistoryBigram.decay
  rw [show cexFinalCount.recentPool.unigramFreq wB = 0 from rfl,
    show cexFinalCount.finalPool.unigramFreq wB = 1 from rfl]
  norm_num

theorem cexFinalCount_pr_eq : cexFinalCount.pr wA wB = 0 := by
  unfold HistoryBigram.pr
  rw [cexFinalCount_unigramFreqQ_cur,
    show cexFinalCount.unigramFreqQ wA = 0 by
      unfold HistoryBigram.unigramFreqQ HistoryBigram.decay
      rw [show cexFinalCount.recentPool.unigramFreq wA = 0 from rfl,
        show cexFinalCount.finalPool.unigramFreq wA = 0 from rfl]
      norm_num,
    show cexFinalCount.bigramFreqQ wA wB = 0 by
      unfold HistoryBigram.bigramFreqQ HistoryBigram.decay
      rw [show cexFinalCount.recentPool.bigramFreq wA wB = 0 from rfl,
        show cexFinalCount.finalPool.bigramFreq wA wB = 0 from rfl]
      norm_num,
    show cexFinalCount.sizeQ = 0 by
      unfold HistoryBigram.sizeQ HistoryBigram.decay
      rw [show cexFinalCount.recentPool.size = 0 from rfl,
        show cexFinalCount.finalPool.size = 0 from rfl]
      norm_num]
  norm_num

theorem cexFinalCount_score_eq : cexFinalCount.score wA wB = -5 := by
  rw [score_of_eq_zero cexFinalCount wA wB cexFinalCount_pr_eq,
    show cexFinalCount.unknown = -5 from rfl]
  norm_num

theorem cexFinalCount_prSpec_eq : cexFinalCount.prSpec wA wB = 4 / 125 := by
  unfold HistoryBigram.prSpec
  rw [cexFinalCount_unigramFreqQ_cur,
    show cexFinalCount.unigramFreqQ wA = 0 by
      unfold HistoryBigram.unigramFreqQ HistoryBigram.decay
      rw [show cexFinalCount.recentPool.unigramFreq wA = 0 from rfl,
        show cexFinalCount.finalPool.unigramFreq wA = 0 from rfl]
      norm_num,
    show cexFinalCount.bigramFreqQ wA wB = 0 by
      unfold HistoryBigram.bigramFreqQ HistoryBigram.decay
      rw [show cexFinalCount.recentPool.bigramFreq wA wB = 0 from rfl,
        show cexFinalCount.finalPool.bigramFreq wA wB = 0 from rfl]
      norm_num,
    show cexFinalCount.sizeQ = 0 by
      unfold HistoryBigram.sizeQ HistoryBigram.decay
      rw [show cexFinalCount.recentPool.size = 0 from rfl,
        show cexFinalCount.finalPool.size = 0 from rfl]
      norm_num]
  norm_num

/-- Counterexample to C3 as stated: in a state whose final pool holds one
count of "b" (blended unigram evidence 1/20 ≠ 0), score("a","b") still equals
the unknown floor -5, because the blend is truncated to the int 0 before
entering the formula; so "score equals the floor iff the combined numerator
evidence is zero" fails. -/
theorem score_floor_blend_cex :
    cexFinalCount.unknown = -5
  ∧ cexFinalCount.score wA wB = -5
  ∧ cexFinalCount.unigramFreqQ wB ≠ 0 := by
  refine ⟨rfl, cexFinalCount_score_eq, ?_⟩
  rw [cexFinalCount_unigramFreqQ_cur]
  norm_num

/-- C3 (amended): with the default unknown floor -5: score(a,b) ≤ 0 always;
score(a,b) = 0 iff the computed probability pr is ≥ 1; pr = 0 iff both
truncated numerator counts (the int-cast blended bigram count of (a,b) and
the int-cast blended unigram count of b) are zero; and score(a,b) = -5 iff
pr = 0 or pr is exactly 10^-5 (because of the truncation a nonzero exact
blend can still give pr = 0, and the log branch returns exactly the floor
value in the coincidental case pr = 10^-5). -/
theorem score_bounds (st : HistoryBigram) (a b : Word)
    (hu : st.unknown = -5) :
    st.score a b ≤ 0
  ∧ (st.score a b = 0 ↔ 1 ≤ st.pr a b)
  ∧ (st.pr a b = 0 ↔ ⌊st.bigramFreqQ a b⌋ = 0 ∧ ⌊st.unigramFreqQ b⌋ = 0)
  ∧ (st.score a b = -5 ↔ (st.pr a b = 0 ∨ st.pr a b = 1 / 100000)) := by
  have hq0 := pr_nonneg st a b
  by_cases h1 : 1 ≤ st.pr a b
  · have hs := score_of_ge_one st a b h1
    refine ⟨by rw [hs], iff_of_true hs h1, pr_eq_zero_iff st a b, ?_⟩
    refine iff_of_false (by rw [hs]; norm_num) ?_
    rintro (h | h) <;> rw [h] at h1 <;> norm_num at h1
  · by_cases h2 : st.pr a b = 0
    · have hs := score_of_eq_zero st a b h2
      rw [hu] at hs
      refine ⟨by rw [hs]; norm_num, iff_of_false (by rw [hs]; norm_num) h1,
        pr_eq_zero_iff st a b, iff_of_true (by rw [hs]; norm_num) (Or.inl h2)⟩
    · have hpos : 0 < st.pr a b := lt_of_le_of_ne hq0 (Ne.symm h2)
      have hlt : st.pr a b < 1 := lt_of_not_le h1
      have hs := score_of_between st a b hpos hlt
      have hposR : (0:ℝ) < (st.pr a b : ℝ) := by exact_mod_cast hpos
      have hltR : ((st.pr a b : ℝ)) < 1 := by exact_mod_cast hlt
      have hneg : Real.logb 10 ((st.pr a b : ℝ)) < 0 :=
        Real.logb_neg (by norm_num) hposR hltR
      refine ⟨by rw [hs]; exact le_of_lt hneg,
        iff_of_false (by rw [hs]; exact ne_of_lt hneg) h1,
        pr_eq_zero_iff st a b, ?_⟩
      rw [hs]
      constructor
      · intro h
        right
        have hx : ((st.pr a b : ℝ)) = (10:ℝ) ^ (-5 : ℝ) := by
          conv_lhs => rw [← Real.rpow_logb (show (0:ℝ) < 10 by norm_num)
            (show (10:ℝ) ≠ 1 by norm_num) hposR]
          rw [h]
        rw [show (-5:ℝ) = ((-5:ℤ):ℝ) by norm_num, Real.rpow_intCast] at hx
        have hq : ((st.pr a b : ℝ)) = ((1 / 100000 : ℚ) : ℝ) := by
          rw [hx]
          norm_num
        exact_mod_cast hq
      · rintro (h | h)
        · exact absurd h h2
        · rw [h]
          push_cast
          rw [show ((1:ℝ)/100000) = (10:ℝ) ^ ((-5:ℤ):ℝ) by
            rw [Real.rpow_intCast]; norm_num]
          rw [Real.logb_rpow (by norm_num) (by norm_num)]
          norm_num

/-- Witness for the score-bounds theorem at a fresh (default-floor) state. -/
theorem score_bounds_witness :
    freshHistoryBigram.unknown = -5
  ∧ (freshHistoryBigram.score wA wB ≤ 0
    ∧ (freshHistoryBigram.score wA wB = 0 ↔ 1 ≤ freshHistoryBigram.pr wA wB)
    ∧ (freshHistoryBigram.pr wA wB = 0 ↔
        ⌊freshHistoryBigram.bigramFreqQ wA wB⌋ = 0 ∧
        ⌊freshHistoryBigram.unigramFreqQ wB⌋ = 0)
    ∧ (freshHistoryBigram.score wA wB = -5 ↔
        (freshHistoryBigram.pr wA wB = 0 ∨
         freshHistoryBigram.pr wA wB = 1 / 100000))) :=
  ⟨rfl, score_bounds freshHistoryBigram wA wB rfl⟩

/-- Counterexample to C1 as stated: at a state whose final pool holds one
count of "b", the claim's formula with exact (unrounded) blends yields
p = 0.32 * (1/20) / (0 + 1/2) = 4/125 and hence log10(4/125), but the source
truncates the blended count 1/20 to the int 0, computes pr = 0, and returns
the unknown floor -5 instead. -/
theorem score_exact_blends_cex :
    cexFinalCount.score wA wB = -5
  ∧ cexFinalCount.scoreSpec wA wB ≠ cexFinalCount.score wA wB := by
  refine ⟨cexFinalCount_score_eq, ?_⟩
  rw [cexFinalCount_score_eq, HistoryBigram.scoreSpec, cexFinalCount_prSpec_eq,
    if_neg (by norm_num), if_neg (by norm_num)]
  intro h
  have hx : (((4:ℚ) / 125 : ℚ) : ℝ) = (10:ℝ) ^ (-5 : ℝ) := by
    conv_lhs => rw [← Real.rpow_logb (show (0:ℝ) < 10 by norm_num)
      (show (10:ℝ) ≠ 1 by norm_num)
      (show (0:ℝ) < (((4:ℚ) / 125 : ℚ) : ℝ) by norm_num)]
    rw [h]
  rw [show (-5:ℝ) = ((-5:ℤ):ℝ) by norm_num, Real.rpow_intCast] at hx
  norm_num at hx

/-- C1 (amended): score(prev, cur) is computed from the blended counts
U(w) = recent.unigram[w] + 0.05 * final.unigram[w],
B = recent.bigram[prev|cur] + 0.05 * final.bigram[prev|cur] and
N = recent.size + 0.05 * final.size, as
p = 0.68 * trunc(B) / (trunc(U(prev)) + 0.5) + 0.32 * trunc(U(cur)) / (N + 0.5):
the blended bigram and unigram counts are truncated to int (the source assigns
the float blends to int locals) while N enters unrounded; the function returns
0 when p >= 1, the unknown floor when p = 0 and log10(p) otherwise. -/
theorem score_formula (st : HistoryBigram) (prev cur : Word) :
    (st.pr prev cur =
      17 / 25 * (⌊(st.recentPool.bigram (bigramKey prev cur) : ℚ) +
          1 / 20 * (st.finalPool.bigram (bigramKey prev cur) : ℚ)⌋ : ℚ) /
        ((⌊(st.recentPool.unigram prev : ℚ) +
          1 / 20 * (st.finalPool.unigram prev : ℚ)⌋ : ℚ) + 1 / 2) +
      8 / 25 * (⌊(st.recentPool.unigram cur : ℚ) +
          1 / 20 * (st.finalPool.unigram cur : ℚ)⌋ : ℚ) /
        (((st.recentPool.size : ℚ) + 1 / 20 * (st.finalPool.size : ℚ)) + 1 / 2))
  ∧ (1 ≤ st.pr prev cur → st.score prev cur = 0)
  ∧ (st.pr prev cur = 0 → st.score prev cur = (st.unknown : ℝ))
  ∧ (0 < st.pr prev cur → st.pr prev cur < 1 →
      st.score prev cur = Real.logb 10 (st.pr prev cur)) := by
  refine ⟨?_, score_of_ge_one st prev cur, score_of_eq_zero st prev cur,
    score_of_between st prev cur⟩
  unfold HistoryBigram.pr HistoryBigram.bigramFreqQ HistoryBigram.unigramFreqQ
    HistoryBigram.sizeQ HistoryBigram.decay HistoryBigramPool.bigramFreq
    HistoryBigramPool.unigramFreq
  have hc : ∀ x y : ℚ, x + y * (1 / 20) = x + 1 / 20 * y := by
    intro x y
    ring
  rw [hc, hc, hc, hc]

/-- Witness for the score-formula theorem: at the fresh state pr is 0 and the
floor branch is taken. -/
theorem score_formula_witness :
    freshHistoryBigram.pr wA wB = 0
  ∧ freshHistoryBigram.score wA wB = (freshHistoryBigram.unknown : ℝ) := by
  have hpr : freshHistoryBigram.pr wA wB = 0 := by
    unfold HistoryBigram.pr
    rw [show freshHistoryBigram.unigramFreqQ wA = 0 by
        unfold HistoryBigram.unigramFreqQ HistoryBigram.decay
        rw [show freshHistoryBigram.recentPool.unigramFreq wA = 0 from rfl,
          show freshHistoryBigram.finalPool.unigramFreq wA = 0 from rfl]
        norm_num,
      show freshHistoryBigram.unigramFreqQ wB = 0 by
        unfold HistoryBigram.unigramFreqQ HistoryBigram.decay
        rw [show freshHistoryBigram.recentPool.unigramFreq wB = 0 from rfl,
          show freshHistoryBigram.finalPool.unigramFreq wB = 0 from rfl]
        norm_num,
      show freshHistoryBigram.bigramFreqQ wA wB = 0 by
        unfold HistoryBigram.bigramFreqQ HistoryBigram.decay
        rw [show freshHistoryBigram.recentPool.bigramFreq wA wB = 0 from rfl,
          show freshHistoryBigram.finalPool.bigramFreq wA wB = 0 from rfl]
        norm_num,
      show freshHistoryBigram.sizeQ = 0 by
        unfold HistoryBigram.sizeQ HistoryBigram.decay
        rw [show freshHistoryBigram.recentPool.size = 0 from rfl,
          show freshHistoryBigram.finalPool.size = 0 from rfl]
        norm_num]
    norm_num
  exact ⟨hpr, (score_formula freshHistoryBigram wA wB).2.2.1 hpr⟩

theorem addAll_replicate_le (n : ℕ) :
    n ≤ 8192 →
    freshHistoryBigram.addAll (List.replicate n [wA]) =
      { recentPool :=
          { recent := List.replicate n [wA],
            unigram := fun w => if w = wA then n else 0,
            bigram := fun _ => 0,
            size := n },
        finalPool := emptyPool,
        unknown := -5 } := by
  induction n with
  | zero =>
    intro _
    have hz : (fun w => if w = wA then (0:ℕ) else 0) = fun _ => (0:ℕ) := by
      funext w
      split <;> rfl
    rw [List.replicate_zero, hz]
    rfl
  | succ n ih =>
    intro hn
    have hrep : List.replicate (n + 1) ([wA] : List Word) =
        List.replicate n [wA] ++ [[wA]] := by
      rw [← List.replicate_succ']
    rw [hrep, HistoryBigram.addAll, List.foldl_append, List.foldl_cons,
      List.foldl_nil]
    rw [show List.foldl HistoryBigram.add freshHistoryBigram
        (List.replicate n [wA]) =
        freshHistoryBigram.addAll (List.replicate n [wA]) from rfl,
      ih (by omega)]
    rw [HistoryBigram.add_of_lt _ _ (by
      show (List.replicate n ([wA] : List Word)).length < 8192
      rw [List.length_replicate]
      omega)]
    refine HistoryBigram.ext ?_ rfl rfl
    show ({ recent := List.replicate n [wA],
            unigram := fun w => if w = wA then (n:ℕ) else 0,
            bigram := fun _ => 0,
            size := n } : HistoryBigramPool).add [wA] = _
    rw [HistoryBigramPool.add, if_neg (by decide)]
    refine HistoryBigramPool.ext ?_ ?_ rfl rfl
    · show [wA] :: List.replicate n [wA] = _
      rw [← List.replicate_succ', List.replicate_succ]
    · show incWords [wA] (fun w => if w = wA then (n:ℕ) else 0) = _
      funext w
      show Function.update (fun w => if w = wA then (n:ℕ) else 0) wA
          ((if wA = wA then (n:ℕ) else 0) + 1) w = _
      rw [Function.update_apply]
      by_cases hw : w = wA <;> simp [hw]

theorem addAll_replicate_evicts :
    freshHistoryBigram.addAll (List.replicate 8193 [wA]) = evictedState := by
  have hrep : List.replicate 8193 ([wA] : List Word) =
      List.replicate 8192 [wA] ++ [[wA]] := by
    rw [← List.replicate_succ']
  rw [hrep, HistoryBigram.addAll, List.foldl_append, List.foldl_cons,
    List.foldl_nil,
    show List.foldl HistoryBigram.add freshHistoryBigram
      (List.replicate 8192 [wA]) =
      freshHistoryBigram.addAll (List.replicate 8192 [wA]) from rfl,
    addAll_replicate_le 8192 (by omega)]
  rw [HistoryBigram.add_of_full2 _ [wA] [wA] (by decide)
    (by
      show (List.replicate 8192 ([wA] : List Word)).length = 8192
      rw [List.length_replicate])
    (by
      show (List.replicate 8192 ([wA] : List Word)).getLastD [] = [wA]
      rw [show (8192:ℕ) = 8191 + 1 from rfl]
      exact getLastD_replicate 8191 [wA] [])]
  have hdec : decFreq wA (fun w => if w = wA then (8192:ℕ) else 0) =
      Function.update (fun w => if w = wA then (8192:ℕ) else 0) wA 8191 := by
    rw [decFreq, if_neg (by simp)]
    congr 1
  refine HistoryBigram.ext ?_ ?_ rfl
  · show ((({ recent := List.replicate 8192 [wA],
              unigram := fun w => if w = wA then (8192:ℕ) else 0,
              bigram := fun _ => 0,
              size := 8192 } : HistoryBigramPool).remove
        [wA]).popBack).insertSentence [wA] = evictedState.recentPool
    refine HistoryBigramPool.ext ?_ ?_ rfl rfl
    · show [wA] :: (List.replicate 8192 ([wA] : List Word)).dropLast = _
      have hdrop : (List.replicate 8192 ([wA] : List Word)).dropLast =
          List.replicate 8191 [wA] := by
        rw [show (8192:ℕ) = 8191 + 1 from rfl, List.replicate_succ',
          List.dropLast_concat]
      rw [hdrop]
      rfl
    · show incFreq wA (decFreq wA
          (fun w => if w = wA then (8192:ℕ) else 0)) = _
      rw [hdec, incFreq]
      show _ = fun w => if w = wA then (8192:ℕ) else 0
      funext w
      by_cases hw : w = wA <;> simp [Function.update_apply, hw]
  · show (emptyPool : HistoryBigramPool).add [wA] = evictedState.finalPool
    rw [HistoryBigramPool.add, if_neg (by decide)]
    refine HistoryBigramPool.ext rfl ?_ rfl rfl
    show incFreq wA (fun _ => (0:ℕ)) = _
    rw [incFreq]
    show _ = fun w => if w = wA then (1:ℕ) else 0
    funext w
    by_cases hw : w = wA <;> simp [Function.update_apply, hw]

theorem reload_evictedState : evictedState.reload = reloadedState := by
  show { (((evictedState.recentPool.saveRecords).foldl HistoryBigram.add
      { freshHistoryBigram with recentPool := emptyPool })) with
    finalPool :=
      { recent := [], unigram := evictedState.finalPool.unigram,
        bigram := evictedState.finalPool.bigram, size := 0 } } = reloadedState
  have hsr : evictedState.recentPool.saveRecords = List.replicate 8192 [wA] := by
    show (List.replicate 8192 ([wA] : List Word)).reverse = _
    rw [List.reverse_replicate]
  rw [hsr]
  rw [show List.foldl HistoryBigram.add
      { freshHistoryBigram with recentPool := emptyPool }
      (List.replicate 8192 [wA]) =
      freshHistoryBigram.addAll (List.replicate 8192 [wA]) from rfl,
    addAll_replicate_le 8192 (by omega)]
  rfl

theorem evictedState_pr : evictedState.pr wX wA = 1310720 / 4096275 := by
  unfold HistoryBigram.pr
  rw [show evictedState.unigramFreqQ wX = 0 by
      unfold HistoryBigram.unigramFreqQ HistoryBigram.decay
      rw [show evictedState.recentPool.unigramFreq wX = 0 from rfl,
        show evictedState.finalPool.unigramFreq wX = 0 from rfl]
      norm_num,
    show evictedState.bigramFreqQ wX wA = 0 by
      unfold HistoryBigram.bigramFreqQ HistoryBigram.decay
      rw [show evictedState.recentPool.bigramFreq wX wA = 0 from rfl,
        show evictedState.finalPool.bigramFreq wX wA = 0 from rfl]
      norm_num,
    show evictedState.unigramFreqQ wA = 8192 + 1 / 20 by
      unfold HistoryBigram.unigramFreqQ HistoryBigram.decay
      rw [show evictedState.recentPool.unigramFreq wA = 8192 from rfl,
        show evictedState.finalPool.unigramFreq wA = 1 from rfl]
      norm_num,
    show evictedState.sizeQ = 8192 + 1 / 20 by
      unfold HistoryBigram.sizeQ HistoryBigram.decay
      rw [show evictedState.recentPool.size = 8192 from rfl,
        show evictedState.finalPool.size = 1 from rfl]
      norm_num]
  norm_num

theorem reloadedState_pr : reloadedState.pr wX wA = 131072 / 409625 := by
  unfold HistoryBigram.pr
  rw [show reloadedState.unigramFreqQ wX = 0 by
      unfold HistoryBigram.unigramFreqQ HistoryBigram.decay
      rw [show reloadedState.recentPool.unigramFreq wX = 0 from rfl,
        show reloadedState.finalPool.unigramFreq wX = 0 from rfl]
      norm_num,
    show reloadedState.bigramFreqQ wX wA = 0 by
      unfold HistoryBigram.bigramFreqQ HistoryBigram.decay
      rw [show reloadedState.recentPool.bigramFreq wX wA = 0 from rfl,
        show reloadedState.finalPool.bigramFreq wX wA = 0 from rfl]
      norm_num,
    show reloadedState.unigramFreqQ wA = 8192 + 1 / 20 by
      unfold HistoryBigram.unigramFreqQ HistoryBigram.decay
      rw [show reloadedState.recentPool.unigramFreq wA = 8192 from rfl,
        show reloadedState.finalPool.unigramFreq wA = 1 from rfl]
      norm_num,
    show reloadedState.sizeQ = 8192 by
      unfold HistoryBigram.sizeQ HistoryBigram.decay
      rw [show reloadedState.recentPool.size = 8192 from rfl,
        show reloadedState.finalPool.size = 0 from rfl]
      norm_num]
  norm_num

/-- Counterexample to C2 as stated: after 8193 adds of the sentence ["a"]
(one sentence evicted into the final pool), saving and loading into a fresh
HistoryBigram loses the final pool's sentence count (its `size_` is not in
the stream and reloads as 0), so the blended N shrinks from 8192.05 to 8192
and score("x","a") changes. -/
theorem reload_changes_score_cex :
    (freshHistoryBigram.addAll (List.replicate 8193 [wA])).reload.score wX wA ≠
      (freshHistoryBigram.addAll (List.replicate 8193 [wA])).score wX wA := by
  rw [addAll_replicate_evicts, reload_evictedState]
  rw [score_of_between reloadedState wX wA (by rw [reloadedState_pr]; norm_num)
      (by rw [reloadedState_pr]; norm_num),
    score_of_between evictedState wX wA (by rw [evictedState_pr]; norm_num)
      (by rw [evictedState_pr]; norm_num),
    reloadedState_pr, evictedState_pr]
  have hlt : ((1310720 / 4096275 : ℚ) : ℝ) < ((131072 / 409625 : ℚ) : ℝ) := by
    exact_mod_cast (by norm_num : (1310720 / 4096275 : ℚ) < 131072 / 409625)
  have hpos : (0:ℝ) < ((1310720 / 4096275 : ℚ) : ℝ) := by
    exact_mod_cast (by norm_num : (0:ℚ) < 1310720 / 4096275)
  exact ne_of_gt (Real.logb_lt_logb (by norm_num) hpos hlt)

/-- C2 (amended): for any sequence of add calls in which at most 8192
sentences are non-empty — so nothing has been evicted into the final pool —
save followed by load into a fresh HistoryBigram restores the state exactly
and score(a,b) is preserved for all words a and b.  Beyond that bound the
identity fails, because the final pool's sentence count is not part of the
stream (only its two tries are written) and reloads as 0. -/
theorem reload_preserves_score (ss : List (List Word)) (a b : Word)
    (h : countNonempty ss ≤ 8192) :
    (freshHistoryBigram.addAll ss).reload = freshHistoryBigram.addAll ss
  ∧ (freshHistoryBigram.addAll ss).reload.score a b =
      (freshHistoryBigram.addAll ss).score a b := by
  have hS : freshHistoryBigram.addAll ss =
      { freshHistoryBigram with recentPool := emptyPool.addList ss } :=
    addAll_of_le ss freshHistoryBigram (by
      rw [show freshHistoryBigram.recentPool.recent.length = 0 from rfl]
      omega)
  have hrec : (freshHistoryBigram.addAll ss).recentPool.recent =
      (ss.filter (fun s => !s.isEmpty)).reverse := by
    rw [hS]
    show (emptyPool.addList ss).recent = _
    rw [addList_recent]
    simp [emptyPool]
  have hrecords : (freshHistoryBigram.addAll ss).recentPool.saveRecords =
      ss.filter (fun s => !s.isEmpty) := by
    show (freshHistoryBigram.addAll ss).recentPool.recent.reverse = _
    rw [hrec, List.reverse_reverse]
  have hcountf : countNonempty (ss.filter (fun s => !s.isEmpty)) =
      countNonempty ss := by
    unfold countNonempty
    rw [List.filter_filter]
    simp
  have hT : ((freshHistoryBigram.addAll ss).recentPool.saveRecords).foldl
      HistoryBigram.add { freshHistoryBigram with recentPool := emptyPool } =
      { freshHistoryBigram with recentPool := emptyPool.addList ss } := by
    rw [hrecords]
    have h2 := addAll_of_le (ss.filter (fun s => !s.isEmpty))
      { freshHistoryBigram with recentPool := emptyPool }
      (by
        rw [show ({ freshHistoryBigram with recentPool := emptyPool } :
          HistoryBigram).recentPool.recent.length = 0 from rfl, hcountf]
        omega)
    rw [h2]
    show { freshHistoryBigram with
      recentPool := emptyPool.addList (ss.filter (fun s => !s.isEmpty)) } = _
    rw [addList_filter]
  have hfin : (freshHistoryBigram.addAll ss).finalPool = emptyPool := by
    rw [hS]
    rfl
  have hreload : (freshHistoryBigram.addAll ss).reload =
      freshHistoryBigram.addAll ss := by
    show { (((freshHistoryBigram.addAll ss).recentPool.saveRecords).foldl
        HistoryBigram.add
        { freshHistoryBigram with recentPool := emptyPool }) with
      finalPool :=
        { recent := [],
          unigram := (freshHistoryBigram.addAll ss).finalPool.unigram,
          bigram := (freshHistoryBigram.addAll ss).finalPool.bigram,
          size := 0 } } = freshHistoryBigram.addAll ss
    rw [hT, hfin, hS]
    rfl
  exact ⟨hreload, by rw [hreload]⟩

/-- Witness for the reload theorem at a concrete two-sentence history. -/
theorem reload_preserves_score_witness :
    countNonempty [[wA], [wB]] ≤ 8192
  ∧ ((freshHistoryBigram.addAll [[wA], [wB]]).reload =
      freshHistoryBigram.addAll [[wA], [wB]]
    ∧ (freshHistoryBigram.addAll [[wA], [wB]]).reload.score wA wB =
      (freshHistoryBigram.addAll [[wA], [wB]]).score wA wB) :=
  ⟨by decide, reload_preserves_score [[wA], [wB]] wA wB (by decide)⟩
